import Mathlib

/-!
Verification of the question-extraction pipeline of `QuestionExtractor`
(backend/core/services/pdf_service.py).

Modelling conventions:

* Text is `List Char` (with `String` wrappers at the public boundary).
* Python float arithmetic in `_calculate_confidence` is modelled by exact
  fraction arithmetic (`Frac`, an unreduced non-negative fraction).  Every
  factor (1.0, 0.5, 0.8, 1.2, 1.1) and every product reachable in the code
  is exactly representable, and every comparison performed by the code
  (`> 0.5`, `min` with 1.0) gives the same verdict on IEEE doubles as on
  the exact rationals, so the model is observation-equivalent.
* The regular-expression operations are specialized to the concrete
  patterns of the source.  The four extraction patterns are each of shape
  `(?:^|\n)` BODY `(?P<text>.*?)(?=LOOKAHEAD|$)` and are matched with
  `re.MULTILINE | re.DOTALL`; with MULTILINE the final `$` of the
  lookahead matches at end of input and immediately before every newline,
  and each LOOKAHEAD alternative itself starts with a newline, so the
  non-greedy text capture always extends up to the next newline or the
  end of input.  Greedy sub-parts (`\d+`, `[.:\s]+`, `\s*`) are maximal
  munch, with the backtracking behaviour worked out per pattern (the
  relevant alternation orders are implemented explicitly).
* Python raising an exception is modelled by `Except Unit`.
  `match.group('marker')` on a pattern that does not define the group
  raises `IndexError`; the per-pattern flag `hasMarkerGroup` records
  whether the group exists.
* Character classes `\w` and `\d` are modelled at ASCII precision
  (alphanumerics/underscore resp. decimal digits); `\s` and `str.strip`
  whitespace use the ASCII whitespace set plus the common Unicode
  whitespace code points.  All concrete inputs appearing in theorems are
  ASCII, and no universally-quantified theorem below depends on the exact
  extent of these classes.
-/

/-- Python regex `\s` / `str.isspace`: ASCII whitespace plus Unicode
whitespace code points. -/
def isPySpace (c : Char) : Bool :=
  c = ' ' || c = '\t' || c = '\n' || c = '\x0b' || c = '\x0c' || c = '\r' ||
  (0x1c ≤ c.toNat && c.toNat ≤ 0x1f) || c.toNat = 0x85 || c.toNat = 0xa0 ||
  c.toNat = 0x1680 || (0x2000 ≤ c.toNat && c.toNat ≤ 0x200a) ||
  c.toNat = 0x2028 || c.toNat = 0x2029 || c.toNat = 0x202f ||
  c.toNat = 0x205f || c.toNat = 0x3000

/-- Python regex `\w` (ASCII part): alphanumerics and underscore. -/
def isPyWordChar (c : Char) : Bool :=
  c.isAlphanum || c = '_'

/-- Python regex `\d` (ASCII part): decimal digits. -/
def isPyDigit (c : Char) : Bool :=
  '0' ≤ c && c ≤ '9'

/-- Decimal value of a digit string, as computed by Python `int`. -/
def digitsToNat (ds : List Char) : Nat :=
  ds.foldl (fun n c => 10 * n + (c.toNat - '0'.toNat)) 0

/-- Unreduced non-negative fraction: the exact-arithmetic stand-in for the
Python floats of `_calculate_confidence`. -/
structure Frac where
  num : Nat
  den : Nat
deriving DecidableEq, Repr

/-- Exact product of fractions. -/
def Frac.mul (a b : Frac) : Frac := ⟨a.num * b.num, a.den * b.den⟩

/-- Exact strict comparison of fractions (cross multiplication). -/
def Frac.blt (a b : Frac) : Bool := a.num * b.den < b.num * a.den

/-- Exact non-strict comparison of fractions (cross multiplication). -/
def Frac.ble (a b : Frac) : Bool := a.num * b.den ≤ b.num * a.den

/-- Python `min x y`: `x` when `x <= y`, else `y`. -/
def Frac.minF (a b : Frac) : Frac := if a.ble b then a else b

/-- Value of a fraction as a rational number. -/
def Frac.toRat (a : Frac) : ℚ := (a.num : ℚ) / (a.den : ℚ)

/-- Consume an exact literal at the head of the text. -/
def dropLit : List Char → List Char → Option (List Char)
  | [], s => some s
  | _ :: _, [] => none
  | c :: lit, d :: s => if c = d then dropLit lit s else none

/-- Consume a literal at the head of the text, ASCII case-insensitively
(re.IGNORECASE on the ASCII literals of `NOISE_PATTERNS`). -/
def dropLitCI : List Char → List Char → Option (List Char)
  | [], s => some s
  | _ :: _, [] => none
  | c :: lit, d :: s => if c.toLower = d.toLower then dropLitCI lit s else none

/-- One noise pattern of `NOISE_PATTERNS`: a case-insensitive literal,
optionally followed by `.*` (greedy, up to end of line since `re.DOTALL`
is not passed to these `re.sub` calls).  `re.sub` scans left to right,
removing every non-overlapping occurrence. -/
def subNoiseAux (lit : List Char) (dotStar : Bool) : Nat → List Char → List Char
  | 0, s => s
  | _ + 1, [] => []
  | fuel + 1, c :: s =>
    match dropLitCI lit (c :: s) with
    | some rest =>
      subNoiseAux lit dotStar fuel (if dotStar then rest.dropWhile (· ≠ '\n') else rest)
    | none => c :: subNoiseAux lit dotStar fuel s

def subNoise (lit : List Char) (dotStar : Bool) (s : List Char) : List Char :=
  subNoiseAux lit dotStar (s.length + 1) s

/-- `QuestionExtractor.NOISE_PATTERNS`, in source order, as
(literal, has-trailing-`.*`) pairs. -/
def NOISE_PATTERNS : List (List Char × Bool) :=
  [ ("Here is the answer to the question".data, true)
  , ("I hope this helps!".data, false)
  , ("Let me know if you have any further questions".data, true)
  , ("In summary,".data, true)
  , ("The following are key points".data, true)
  , ("Please note that".data, true)
  , ("Answer in HTML format:".data, false)
  , ("know if you need any changes".data, true) ]

def cleanNoise (s : List Char) : List Char :=
  NOISE_PATTERNS.foldl (fun acc p => subNoise p.1 p.2 acc) s

/-- `re.sub(r'\s+', ' ', text)`: every maximal run of whitespace becomes a
single space.  The flag records whether the previous character was
whitespace (i.e. whether we are inside a run already replaced). -/
def collapseAux : Bool → List Char → List Char
  | _, [] => []
  | prevWs, c :: cs =>
    if isPySpace c then
      if prevWs then collapseAux true cs else ' ' :: collapseAux true cs
    else c :: collapseAux false cs

def collapseWs (s : List Char) : List Char := collapseAux false s

/-- Index of the last newline in a list, if any. -/
def lastNl : List Char → Option Nat
  | [] => none
  | c :: cs =>
    match lastNl cs with
    | some i => some (i + 1)
    | none => if c = '\n' then some 0 else none

/-- `re.sub(r'\n\s*\n', '\n', text)`.  After an opening newline, the greedy
`\s*` backtracks to the longest whitespace run whose following character
is a newline, i.e. the closing newline is the last newline inside the
maximal whitespace run. -/
def blankSubAux : Nat → List Char → List Char
  | 0, s => s
  | _ + 1, [] => []
  | fuel + 1, c :: cs =>
    if c = '\n' then
      match lastNl (cs.takeWhile isPySpace) with
      | some p => '\n' :: blankSubAux fuel (cs.drop (p + 1))
      | none => c :: blankSubAux fuel cs
    else c :: blankSubAux fuel cs

def blankSub (s : List Char) : List Char := blankSubAux (s.length + 1) s

/-- `re.sub(r'Q\s*\.\s*', 'Q.', text)` (case sensitive). -/
def qDotAux : Nat → List Char → List Char
  | 0, s => s
  | _ + 1, [] => []
  | fuel + 1, c :: cs =>
    if c = 'Q' then
      match cs.dropWhile isPySpace with
      | d :: s2 =>
        if d = '.' then 'Q' :: '.' :: qDotAux fuel (s2.dropWhile isPySpace)
        else c :: qDotAux fuel cs
      | [] => c :: qDotAux fuel cs
    else c :: qDotAux fuel cs

def qDotSub (s : List Char) : List Char := qDotAux (s.length + 1) s

/-- `re.sub(r'Question\s+', 'Question ', text)` (case sensitive). -/
def questionAux : Nat → List Char → List Char
  | 0, s => s
  | _ + 1, [] => []
  | fuel + 1, c :: cs =>
    if c = 'Q' then
      match dropLit "uestion".data cs with
      | some s1 =>
        match s1 with
        | d :: _ =>
          if isPySpace d then
            "Question ".data ++ questionAux fuel (s1.dropWhile isPySpace)
          else c :: questionAux fuel cs
        | [] => c :: questionAux fuel cs
      | none => c :: questionAux fuel cs
    else c :: questionAux fuel cs

def questionSub (s : List Char) : List Char := questionAux (s.length + 1) s

/-- `re.sub(r'[^\w\s\n.?,:;()\[\]-]', '', text)`: keep only the allowed
characters. -/
def allowedChar (c : Char) : Bool :=
  isPyWordChar c || isPySpace c || c = '\n' || c = '.' || c = '?' || c = ',' ||
  c = ':' || c = ';' || c = '(' || c = ')' || c = '[' || c = ']' || c = '-'

def charFilter (s : List Char) : List Char := s.filter allowedChar

/-- Drop trailing whitespace (the right half of Python `str.strip`). -/
def rstripChars : List Char → List Char
  | [] => []
  | c :: cs =>
    match rstripChars cs with
    | [] => if isPySpace c then [] else [c]
    | r => c :: r

/-- Python `str.strip()`. -/
def stripChars (s : List Char) : List Char :=
  rstripChars (s.dropWhile isPySpace)

/-- `QuestionExtractor._clean_text`, stage by stage in source order. -/
def cleanText (s : List Char) : List Char :=
  stripChars (charFilter (questionSub (qDotSub (blankSub (collapseWs (cleanNoise s))))))

example : cleanText "Q.1 What is X? Here is the answer to the question: blah. I hope this helps!".data
    = "Q.1 What is X?".data := by decide

example : cleanText "Q1. First question text here Q2. Second question text here".data
    = "Q1. First question text here Q2. Second question text here".data := by decide

/-- The character class `[.:\s]` of the separator after the question id. -/
def sepClass (c : Char) : Bool := c = '.' || c = ':' || isPySpace c

/-- The character class `[\s.]` of the optional separator after a marker. -/
def optClass (c : Char) : Bool := isPySpace c || c = '.'

/-- Named captures of one match: `marker`, `id`, `text`.  Whether the
pattern defines the group `marker` at all is recorded per pattern
(`Pat.hasMarkerGroup`), not here. -/
structure MatchData where
  marker : Option (List Char)
  idDigits : List Char
  text : List Char
deriving DecidableEq, Repr

/-- Shared tail `(?P<id>\d+)[.:\s]+(?P<text>...)` of patterns 1, 2 and 4:
maximal-munch digits, maximal-munch separator (both required non-empty;
shortening either run cannot help, since the run-stopping character also
fails the next sub-pattern), then the text capture up to the next newline
or end of input.  Returns the match and the remaining text after it. -/
def idSepText (marker : Option (List Char)) (s : List Char) :
    Option (MatchData × List Char) :=
  let ds := s.takeWhile isPyDigit
  if ds.isEmpty then none
  else
    let s1 := s.dropWhile isPyDigit
    if (s1.takeWhile sepClass).isEmpty then none
    else
      let s2 := s1.dropWhile sepClass
      some (⟨marker, ds, s2.takeWhile (· ≠ '\n')⟩, s2.dropWhile (· ≠ '\n'))

/-- `[\s.]?` then the shared tail; the greedy optional first tries to
consume one separator character, then falls back to consuming none. -/
def withOptSep (marker : Option (List Char)) (s : List Char) :
    Option (MatchData × List Char) :=
  match (match s with
         | c :: cs => if optClass c then idSepText marker cs else none
         | [] => none) with
  | some r => some r
  | none => idSepText marker s

/-- Body of pattern 1 after the `(?:^|\n)` anchor:
`(?P<marker>Q|Question)[\s.]?(?P<id>\d+)[.:\s]+(?P<text>...)`.
Alternation order: `Q` with its full continuation first, then
`Question`. -/
def tryBody1 (s : List Char) : Option (MatchData × List Char) :=
  match dropLit ['Q'] s with
  | none => none
  | some s1 =>
    match withOptSep (some ['Q']) s1 with
    | some r => some r
    | none =>
      match dropLit "uestion".data s1 with
      | none => none
      | some s2 => withOptSep (some "Question".data) s2

/-- Body of pattern 2: `(?P<id>\d+)[.:\s]+(?P<text>...)`.  No `marker`
group is defined by this pattern. -/
def tryBody2 (s : List Char) : Option (MatchData × List Char) :=
  idSepText none s

/-- Tail of pattern 3 after `\[` and a marker alternative:
`(?P<id>\d+)\][.:\s]+(?P<text>...)`. -/
def p3AfterMarker (marker : Option (List Char)) (s : List Char) :
    Option (MatchData × List Char) :=
  let ds := s.takeWhile isPyDigit
  if ds.isEmpty then none
  else
    match s.dropWhile isPyDigit with
    | d :: s2 =>
      if d = ']' then
        if (s2.takeWhile sepClass).isEmpty then none
        else
          let s3 := s2.dropWhile sepClass
          some (⟨marker, ds, s3.takeWhile (· ≠ '\n')⟩, s3.dropWhile (· ≠ '\n'))
      else none
    | [] => none

/-- Body of pattern 3: `\[(?P<marker>Q\.?)?(?P<id>\d+)\][.:\s]+...`.
The greedy optional group tries `Q.`, then `Q`, then absence. -/
def tryBody3 (s : List Char) : Option (MatchData × List Char) :=
  match dropLit ['['] s with
  | none => none
  | some s1 =>
    match (match dropLit ['Q', '.'] s1 with
           | some s2 => p3AfterMarker (some ['Q', '.']) s2
           | none => none) with
    | some r => some r
    | none =>
      match (match dropLit ['Q'] s1 with
             | some s2 => p3AfterMarker (some ['Q']) s2
             | none => none) with
      | some r => some r
      | none => p3AfterMarker none s1

/-- Body of pattern 4: `(?P<marker>Problem|Exercise)[\s.]?(?P<id>\d+)...`.
The two alternatives start with different characters, so no cross
backtracking is possible. -/
def tryBody4 (s : List Char) : Option (MatchData × List Char) :=
  match dropLit "Problem".data s with
  | some s1 => withOptSep (some "Problem".data) s1
  | none =>
    match dropLit "Exercise".data s with
    | some s1 => withOptSep (some "Exercise".data) s1
    | none => none

/-- The four extraction patterns of `QuestionExtractor.PATTERNS`, in
priority order. -/
inductive Pat
  | p1
  | p2
  | p3
  | p4
deriving DecidableEq, Repr

def Pat.tryBody : Pat → List Char → Option (MatchData × List Char)
  | .p1 => tryBody1
  | .p2 => tryBody2
  | .p3 => tryBody3
  | .p4 => tryBody4

/-- Whether the pattern's regex defines a group named `marker`
(pattern 2 does not). -/
def Pat.hasMarkerGroup : Pat → Bool
  | .p2 => false
  | _ => true

def PATTERNS : List Pat := [.p1, .p2, .p3, .p4]

/-- `re.finditer`: scan every position left to right.  At each position the
anchor `(?:^|\n)` first matches empty if the position is the start of input
or just after a newline, else consumes a newline.  After a successful match
scanning resumes at its end; the character before that position is the last
character of the text capture, which is never a newline, so the next
position is `^`-anchored only via the newline-consuming alternative. -/
def finditerAux (p : Pat) : Nat → Bool → List Char → List MatchData
  | 0, _, _ => []
  | _ + 1, _, [] => []
  | fuel + 1, anch, c :: cs =>
    match (if anch then p.tryBody (c :: cs) else none) with
    | some (m, rest) => m :: finditerAux p fuel false rest
    | none =>
      match (if c = '\n' then p.tryBody cs else none) with
      | some (m, rest) => m :: finditerAux p fuel false rest
      | none => finditerAux p fuel (c = '\n') cs

def finditer (p : Pat) (s : List Char) : List MatchData :=
  finditerAux p (s.length + 1) true s

/-- Python truthiness of `match.group('marker')`: false for `None` and for
an empty capture. -/
def markerTruthy : Option (List Char) → Bool
  | none => false
  | some m => !m.isEmpty

/-- `QuestionExtractor._calculate_confidence`.  `.error ()` models the
`IndexError` raised by `match.group('marker')` when the pattern defines no
such group.  The capitalization check of the source computes
`re.search(r'^[A-Z]', text)` and discards the result, so it has no
observable effect and is omitted. -/
def calcConfidence (hasG : Bool) (marker : Option (List Char))
    (text : List Char) : Except Unit Frac :=
  let c1 : Frac := ⟨1, 1⟩
  let c2 := if text.length < 10 then c1.mul ⟨1, 2⟩
            else if 500 < text.length then c1.mul ⟨4, 5⟩
            else c1
  if hasG = false then .error ()
  else
    let c3 := if markerTruthy marker then c2.mul ⟨6, 5⟩ else c2
    let c4 := if text.contains '?' then c3.mul ⟨11, 10⟩ else c3
    .ok (c4.minF ⟨1, 1⟩)

/-- The `QuestionMatch` dataclass. -/
structure QuestionMatch where
  question_id : Nat
  question_text : List Char
  confidence : Frac
deriving DecidableEq, Repr

/-- One iteration of the inner loop of `_extract_with_confidence`: skip if
the id was already claimed, else score and accept when the confidence
exceeds 0.5. -/
def processMatch (hasG : Bool) (st : List Nat × List QuestionMatch)
    (md : MatchData) : Except Unit (List Nat × List QuestionMatch) :=
  let qId := digitsToNat md.idDigits
  let qText := stripChars md.text
  if qId ∈ st.1 then .ok st
  else
    match calcConfidence hasG md.marker qText with
    | .error e => .error e
    | .ok conf =>
      if Frac.blt ⟨1, 2⟩ conf then
        .ok (qId :: st.1, st.2 ++ [⟨qId, qText, conf⟩])
      else .ok st

def processMatches (hasG : Bool) :
    List MatchData → List Nat × List QuestionMatch →
    Except Unit (List Nat × List QuestionMatch)
  | [], st => .ok st
  | md :: ms, st =>
    match processMatch hasG st md with
    | .error e => .error e
    | .ok st' => processMatches hasG ms st'

def runPatterns (t : List Char) :
    List Pat → List Nat × List QuestionMatch →
    Except Unit (List Nat × List QuestionMatch)
  | [], st => .ok st
  | p :: ps, st =>
    match processMatches p.hasMarkerGroup (finditer p t) st with
    | .error e => .error e
    | .ok st' => runPatterns t ps st'

/-- Stable insertion used to model Python `sorted(..., key=question_id)`. -/
def insertQM (m : QuestionMatch) :
    List QuestionMatch → List QuestionMatch
  | [] => [m]
  | x :: xs =>
    if m.question_id ≤ x.question_id then m :: x :: xs else x :: insertQM m xs

def sortQM : List QuestionMatch → List QuestionMatch
  | [] => []
  | x :: xs => insertQM x (sortQM xs)

/-- `QuestionExtractor._extract_with_confidence`. -/
def extractWithConfidence (t : List Char) :
    Except Unit (List QuestionMatch) :=
  match runPatterns t PATTERNS ([], []) with
  | .error e => .error e
  | .ok st => .ok (sortQM st.2)

/-- One output record (`{'question_id': ..., 'question': ...}`). -/
structure Record where
  question_id : Nat
  question : List Char
deriving DecidableEq, Repr

/-- `QuestionExtractor._final_clean`. -/
def finalClean (t : List Char) : List Char :=
  let u := stripChars (collapseWs t)
  if u = [] then u
  else if u.getLast? = some '.' ∨ u.getLast? = some '?' then u
  else u ++ ['.']

/-- `QuestionExtractor._post_process_questions`. -/
def postProcess (qs : List QuestionMatch) : List Record :=
  qs.filterMap fun m =>
    let t := finalClean m.question_text
    if t = [] then none else some ⟨m.question_id, t⟩

deriving instance DecidableEq for Except

/-- The extraction pipeline of the claims:
`_post_process_questions(_extract_with_confidence(_clean_text(input)))`. -/
def extractPipeline (s : String) : Except Unit (List Record) :=
  match extractWithConfidence (cleanText s.data) with
  | .error e => .error e
  | .ok qs => .ok (postProcess qs)

example : extractPipeline "Q1. First question text here Q2. Second question text here"
    = .ok [⟨1, "First question text here Q2. Second question text here.".data⟩] := by decide

example : extractPipeline "1. What is love?" = .error () := by decide

example : extractPipeline "Q.1 What is X? Here is the answer to the question: blah. I hope this helps!"
    = .ok [⟨1, "What is X?".data⟩] := by decide

example : (finditer .p3 "[1] ab\n[1] What is love?".data).map
      (fun m => (digitsToNat m.idDigits, m.text))
    = [(1, "ab".data), (1, "What is love?".data)] := by decide

example : extractWithConfidence "[1] ab\n[1] What is love?".data
    = .ok [⟨1, "What is love?".data, ⟨1, 1⟩⟩] := by decide

/-- The confidence formula as the spec states it: the length factor
(0.5 below 10 characters, 0.8 above 500, else 1.0). -/
def specLenFactor (text : List Char) : Frac :=
  if text.length < 10 then ⟨1, 2⟩
  else if 500 < text.length then ⟨4, 5⟩
  else ⟨1, 1⟩

/-- The confidence formula as the spec states it: the marker factor
(1.2 when the marker capture is non-empty). -/
def specMarkerFactor (marker : Option (List Char)) : Frac :=
  if markerTruthy marker then ⟨6, 5⟩ else ⟨1, 1⟩

/-- The confidence formula as the spec states it: the question-mark factor
(1.1 when the body contains a question mark). -/
def specQmarkFactor (text : List Char) : Frac :=
  if text.contains '?' then ⟨11, 10⟩ else ⟨1, 1⟩

/-- The confidence formula as the spec states it:
`min(1.0, 1.0 * f_len * f_marker * f_qmark)`. -/
def specConfidence (marker : Option (List Char)) (text : List Char) : Frac :=
  Frac.minF ((((⟨1, 1⟩ : Frac).mul (specLenFactor text)).mul
    (specMarkerFactor marker)).mul (specQmarkFactor text)) ⟨1, 1⟩

/-- C1 (counterexample): on the input
"Q1. First question text here Q2. Second question text here" the
extraction pipeline does NOT return two records: it returns exactly one.
No newline precedes "Q2", and every pattern only matches at the start of
input or after a newline, so a second match never starts. -/
theorem c1_counterexample :
    (extractPipeline
        "Q1. First question text here Q2. Second question text here").map
      List.length = Except.ok 1 := by
  decide

/-- C1 (amended): on that input the pipeline returns exactly one record,
with id 1, whose text is the whole remainder of the line — in particular
it contains the second question's text rather than stopping before it. -/
theorem c1_amended_thm :
    extractPipeline
        "Q1. First question text here Q2. Second question text here"
      = Except.ok
          [⟨1, "First question text here Q2. Second question text here.".data⟩] := by
  decide

/-- C3: the pipeline does NOT complete on every input.  On
"1. What is love?" the only match comes from the bare-leading-numeral
pattern, which defines no group named `marker`; `_calculate_confidence`
unconditionally reads `match.group('marker')`, which raises `IndexError`
and aborts the whole extraction. -/
theorem c3_code_bug_thm :
    extractPipeline "1. What is love?" = Except.error () := by
  decide

/-- C8: the noise phrases are removed by `_clean_text` before matching, so
"Q.1 What is X? Here is the answer to the question: blah. I hope this
helps!" yields exactly one record, id 1, text "What is X?". -/
theorem c8_thm :
    extractPipeline
        "Q.1 What is X? Here is the answer to the question: blah. I hope this helps!"
      = Except.ok [⟨1, "What is X?".data⟩] := by
  decide

/-- C6 (counterexample): `_calculate_confidence` does not return the spec
formula for every text and match — for a match of the numbered pattern
(which defines no group named `marker`) it raises instead of returning. -/
theorem c6_counterexample :
    calcConfidence Pat.p2.hasMarkerGroup none "What is love?".data
      = Except.error () := by
  decide

/-- On a match whose pattern defines the `marker` group,
`_calculate_confidence` never raises and computes the multiplicative
formula. -/
theorem calcConfidence_true (marker : Option (List Char)) (text : List Char) :
    calcConfidence true marker text = Except.ok (specConfidence marker text) := by
  simp only [calcConfidence, specConfidence, specLenFactor, specMarkerFactor,
    specQmarkFactor]
  split_ifs <;> first | contradiction | rfl

/-- C6 (amended): for every candidate text and every match of a pattern
that defines the `marker` group, `_calculate_confidence` returns exactly
`min(1.0, 1.0 * f_len * f_marker * f_qmark)` with the factors of the
claim; the result lies in [0, 1]; and it depends only on the text length,
the marker capture and the presence of '?' — the capitalization check is
a no-op. -/
theorem c6_amended_thm (marker : Option (List Char)) (text : List Char) :
    calcConfidence true marker text = Except.ok (specConfidence marker text) ∧
    0 ≤ (specConfidence marker text).toRat ∧
    (specConfidence marker text).toRat ≤ 1 := by
  refine ⟨calcConfidence_true marker text, ?_, ?_⟩ <;>
    simp only [specConfidence, specLenFactor, specMarkerFactor,
      specQmarkFactor] <;>
    split_ifs <;>
    norm_num [Frac.toRat, Frac.mul, Frac.minF, Frac.ble]

/-- Every whitespace character is a plain space. -/
def NoBadWs (l : List Char) : Prop := ∀ c ∈ l, isPySpace c = true → c = ' '

/-- No two adjacent spaces. -/
def NoDbl (l : List Char) : Prop :=
  List.Chain' (fun a b => a ≠ ' ' ∨ b ≠ ' ') l

theorem collapseAux_noBad (l : List Char) : ∀ b, NoBadWs (collapseAux b l) := by
  induction l with
  | nil => intro b c hc; simp [collapseAux] at hc
  | cons c cs ih =>
    intro b
    by_cases hw : isPySpace c
    · cases b with
      | true => simpa [collapseAux, hw] using ih true
      | false =>
        intro d hd hdw
        simp only [collapseAux, hw, if_true] at hd
        rcases List.mem_cons.mp hd with h | h
        · exact h
        · exact ih true d h hdw
    · intro d hd hdw
      simp only [collapseAux, hw, if_false, Bool.false_eq_true] at hd
      rcases List.mem_cons.mp hd with h | h
      · subst h; exact absurd hdw (by simp [hw])
      · exact ih false d h hdw

theorem collapseAux_true_head (l : List Char) :
    ∀ c, (collapseAux true l).head? = some c → isPySpace c = false := by
  induction l with
  | nil => intro c hc; simp [collapseAux] at hc
  | cons d ds ih =>
    intro c hc
    by_cases hw : isPySpace d
    · exact ih c (by simpa [collapseAux, hw] using hc)
    · simp only [collapseAux, hw, if_false, Bool.false_eq_true, List.head?_cons,
        Option.some.injEq] at hc
      subst hc; simpa using hw

theorem collapseAux_noDbl (l : List Char) : ∀ b, NoDbl (collapseAux b l) := by
  induction l with
  | nil => intro b; simp [collapseAux, NoDbl]
  | cons c cs ih =>
    intro b
    by_cases hw : isPySpace c
    · cases b with
      | true => simpa [collapseAux, hw] using ih true
      | false =>
        simp only [NoDbl, collapseAux, hw, if_true]
        refine List.chain'_cons'.mpr ⟨?_, ih true⟩
        intro y hy
        right
        intro hy'
        subst hy'
        have := collapseAux_true_head cs _ hy
        simp [isPySpace] at this
    · simp only [NoDbl, collapseAux, hw, if_false, Bool.false_eq_true]
      refine List.chain'_cons'.mpr ⟨?_, ih false⟩
      intro y _
      left
      intro hc
      subst hc
      simp [isPySpace] at hw

theorem collapse_fix (l : List Char) (hb : NoBadWs l) (hd : NoDbl l) :
    collapseAux false l = l ∧
      ((∀ c, l.head? = some c → c ≠ ' ') → collapseAux true l = l) := by
  induction l with
  | nil => exact ⟨rfl, fun _ => rfl⟩
  | cons c cs ih =>
    have hb' : NoBadWs cs := fun d hd' => hb d (List.mem_cons_of_mem _ hd')
    have hd' : NoDbl cs := (List.chain'_cons'.mp hd).2
    obtain ⟨ihf, iht⟩ := ih hb' hd'
    by_cases hw : isPySpace c
    · have hc : c = ' ' := hb c (List.mem_cons_self c cs) hw
      subst hc
      have hhead : ∀ d, cs.head? = some d → d ≠ ' ' := by
        intro d hdd hds
        subst hds
        rcases (List.chain'_cons'.mp hd).1 _ hdd with h | h <;> exact h rfl
      constructor
      · simp [collapseAux, hw, iht hhead]
      · intro hh
        exact absurd rfl (hh ' ' rfl)
    · have hcs : c ≠ ' ' := fun h => by subst h; simp [isPySpace] at hw
      constructor
      · simp [collapseAux, hw, ihf]
      · intro _
        simp [collapseAux, hw, ihf]

theorem mem_rstrip {c : Char} {l : List Char} (h : c ∈ rstripChars l) : c ∈ l := by
  induction l with
  | nil => simp [rstripChars] at h
  | cons d ds ih =>
    simp only [rstripChars] at h
    rcases hr : rstripChars ds with _ | ⟨e, es⟩
    · rw [hr] at h
      by_cases hw : isPySpace d
      · simp [hw] at h
      · simp only [hw, if_false, Bool.false_eq_true, List.mem_singleton] at h
        simp [h]
    · rw [hr] at h
      rcases List.mem_cons.mp h with h | h
      · simp [h]
      · exact List.mem_cons_of_mem _ (ih (hr ▸ h))

theorem rstrip_head (l : List Char) :
    rstripChars l = [] ∨ (rstripChars l).head? = l.head? := by
  induction l with
  | nil => exact Or.inl rfl
  | cons d ds _ =>
    simp only [rstripChars]
    rcases hr : rstripChars ds with _ | ⟨e, es⟩
    · by_cases hw : isPySpace d
      · simp [hw]
      · simp [hw]
    · simp

theorem rstrip_last_not_ws (l : List Char) :
    ∀ c, (rstripChars l).getLast? = some c → isPySpace c = false := by
  induction l with
  | nil => intro c hc; simp [rstripChars] at hc
  | cons d ds ih =>
    intro c hc
    simp only [rstripChars] at hc
    rcases hr : rstripChars ds with _ | ⟨e, es⟩
    · rw [hr] at hc
      by_cases hw : isPySpace d
      · simp [hw] at hc
      · simp only [hw, if_false, Bool.false_eq_true, List.getLast?_singleton,
          Option.some.injEq] at hc
        subst hc; simpa using hw
    · rw [hr] at hc
      rw [List.getLast?_cons_cons] at hc
      exact ih c (hr ▸ hc)

theorem rstrip_fix (l : List Char)
    (h : ∀ c, l.getLast? = some c → isPySpace c = false) :
    rstripChars l = l := by
  induction l with
  | nil => rfl
  | cons d ds ih =>
    cases ds with
    | nil =>
      have := h d (by simp)
      simp [rstripChars, this]
    | cons e es =>
      have hds : rstripChars (e :: es) = e :: es := by
        apply ih
        intro c hc
        exact h c (by rw [List.getLast?_cons_cons]; exact hc)
      have hstep : rstripChars (d :: e :: es)
          = match rstripChars (e :: es) with
            | [] => if isPySpace d then [] else [d]
            | r => d :: r := rfl
      rw [hstep, hds]

theorem rstrip_append (l : List Char) : ∃ t, l = rstripChars l ++ t := by
  induction l with
  | nil => exact ⟨[], rfl⟩
  | cons d ds ih =>
    obtain ⟨t, ht⟩ := ih
    simp only [rstripChars]
    rcases hr : rstripChars ds with _ | ⟨e, es⟩
    · by_cases hw : isPySpace d
      · exact ⟨d :: ds, by simp [hw]⟩
      · refine ⟨ds, by simp [hw]⟩
    · rw [hr] at ht
      exact ⟨t, by simpa using congrArg (d :: ·) ht⟩

theorem rstrip_chain' {R : Char → Char → Prop} {l : List Char}
    (h : List.Chain' R l) : List.Chain' R (rstripChars l) := by
  obtain ⟨t, ht⟩ := rstrip_append l
  rw [ht] at h
  exact (List.chain'_append.mp h).1

theorem dropWhile_head_not {p : Char → Bool} (l : List Char) :
    ∀ c, (l.dropWhile p).head? = some c → p c = false := by
  induction l with
  | nil => intro c hc; simp at hc
  | cons d ds ih =>
    intro c hc
    by_cases hp : p d
    · exact ih c (by simpa [List.dropWhile_cons, hp] using hc)
    · simp only [List.dropWhile_cons, hp, if_false, Bool.false_eq_true,
        List.head?_cons, Option.some.injEq] at hc
      subst hc; simpa using hp

theorem dropWhile_fix {p : Char → Bool} (l : List Char)
    (h : ∀ c, l.head? = some c → p c = false) : l.dropWhile p = l := by
  cases l with
  | nil => rfl
  | cons d ds => simp [List.dropWhile_cons, h d rfl]

theorem strip_head_not_ws (l : List Char) :
    ∀ c, (stripChars l).head? = some c → isPySpace c = false := by
  intro c hc
  rcases rstrip_head (l.dropWhile isPySpace) with h | h
  · rw [stripChars, h] at hc; simp at hc
  · rw [stripChars, h] at hc
    exact dropWhile_head_not l c hc

theorem strip_last_not_ws (l : List Char) :
    ∀ c, (stripChars l).getLast? = some c → isPySpace c = false :=
  fun c hc => rstrip_last_not_ws (l.dropWhile isPySpace) c hc

theorem strip_noBad {l : List Char} (h : NoBadWs l) : NoBadWs (stripChars l) :=
  fun c hc hw =>
    h c ((List.dropWhile_sublist isPySpace).subset (mem_rstrip hc)) hw

theorem strip_noDbl {l : List Char} (h : NoDbl l) : NoDbl (stripChars l) :=
  rstrip_chain' (h.suffix (List.dropWhile_suffix isPySpace))

theorem strip_fix (l : List Char)
    (hh : ∀ c, l.head? = some c → isPySpace c = false)
    (hl : ∀ c, l.getLast? = some c → isPySpace c = false) :
    stripChars l = l := by
  rw [stripChars, dropWhile_fix l hh, rstrip_fix l hl]

theorem strip_collapse_noBad (t : List Char) :
    NoBadWs (stripChars (collapseWs t)) :=
  strip_noBad (collapseAux_noBad t false)

theorem strip_collapse_noDbl (t : List Char) :
    NoDbl (stripChars (collapseWs t)) :=
  strip_noDbl (collapseAux_noDbl t false)

/-- A text that is already whitespace-collapsed, trimmed, and either empty
or terminated by '.' or '?' is a fixed point of `_final_clean`. -/
theorem finalClean_eq_self (u : List Char) (hb : NoBadWs u) (hd : NoDbl u)
    (hh : ∀ c, u.head? = some c → isPySpace c = false)
    (hl : ∀ c, u.getLast? = some c → isPySpace c = false)
    (he : u = [] ∨ u.getLast? = some '.' ∨ u.getLast? = some '?') :
    finalClean u = u := by
  have hcol : collapseWs u = u := (collapse_fix u hb hd).1
  have hstr : stripChars u = u := strip_fix u hh hl
  rcases he with he | he
  · subst he; rfl
  · have hne : u ≠ [] := by
      intro h
      subst h
      rcases he with he | he <;> simp at he
    simp only [finalClean, collapseWs] at *
    rw [hcol, hstr, if_neg hne, if_pos he]

/-- The output of `_final_clean` is whitespace-collapsed, trimmed, and
either empty or terminated by '.' or '?'. -/
theorem finalClean_props (t : List Char) :
    NoBadWs (finalClean t) ∧ NoDbl (finalClean t) ∧
    (∀ c, (finalClean t).head? = some c → isPySpace c = false) ∧
    (∀ c, (finalClean t).getLast? = some c → isPySpace c = false) ∧
    (finalClean t = [] ∨ (finalClean t).getLast? = some '.' ∨
      (finalClean t).getLast? = some '?') := by
  have hb := strip_collapse_noBad t
  have hd := strip_collapse_noDbl t
  have hh := strip_head_not_ws (collapseWs t)
  have hl := strip_last_not_ws (collapseWs t)
  set u := stripChars (collapseWs t) with hu
  by_cases h0 : u = []
  · have hf : finalClean t = [] := by simp [finalClean, ← hu, h0]
    rw [hf]
    exact ⟨by intro c hc; simp at hc, by simp [NoDbl], by simp, by simp,
      Or.inl rfl⟩
  · by_cases h1 : u.getLast? = some '.' ∨ u.getLast? = some '?'
    · have hf : finalClean t = u := by simp [finalClean, ← hu, h0, h1]
      rw [hf]
      exact ⟨hb, hd, hh, hl, Or.inr h1⟩
    · have hf : finalClean t = u ++ ['.'] := by simp [finalClean, ← hu, h0, h1]
      rw [hf]
      refine ⟨?_, ?_, ?_, ?_, ?_⟩
      · intro c hc hw
        rcases List.mem_append.mp hc with h | h
        · exact hb c h hw
        · simp only [List.mem_singleton] at h
          subst h
          exact absurd hw (by decide)
      · refine List.chain'_append.mpr ⟨hd, List.chain'_singleton _, ?_⟩
        intro x _ y hy
        simp only [List.head?_cons, Option.mem_def, Option.some.injEq] at hy
        subst hy
        exact Or.inr (by decide)
      · intro c hc
        rw [List.head?_append_of_ne_nil _ h0] at hc
        exact hh c hc
      · intro c hc
        rw [List.getLast?_concat] at hc
        have hcd : c = '.' := (Option.some.inj hc).symm
        subst hcd
        decide
      · exact Or.inr (Or.inl (List.getLast?_concat _))

/-- C10: `_final_clean` is idempotent. -/
theorem c10_thm (t : String) :
    finalClean (finalClean t.data) = finalClean t.data := by
  obtain ⟨hb, hd, hh, hl, he⟩ := finalClean_props t.data
  exact finalClean_eq_self _ hb hd hh hl he


theorem dropLit_suffix :
    ∀ (lit s r : List Char), dropLit lit s = some r → r <:+ s := by
  intro lit
  induction lit with
  | nil =>
    intro s r h
    simp only [dropLit, Option.some.injEq] at h
    exact h ▸ List.suffix_refl s
  | cons c lit ih =>
    intro s r h
    cases s with
    | nil => simp [dropLit] at h
    | cons d s' =>
      simp only [dropLit] at h
      split_ifs at h
      exact (ih s' r h).trans ⟨[d], rfl⟩

theorem collapseAux_no_nl (l : List Char) (b : Bool) :
    '\n' ∉ collapseAux b l := by
  intro h
  have := collapseAux_noBad l b '\n' h (by decide)
  simp at this

theorem blankSubAux_no_nl (fuel : Nat) (l : List Char) (h : '\n' ∉ l) :
    '\n' ∉ blankSubAux fuel l := by
  induction fuel generalizing l with
  | zero => simpa [blankSubAux] using h
  | succ n ih =>
    cases l with
    | nil => simp [blankSubAux]
    | cons c cs =>
      have hc : c ≠ '\n' := fun hcc => h (hcc ▸ List.mem_cons_self c cs)
      have hcs : '\n' ∉ cs := fun hm => h (List.mem_cons_of_mem _ hm)
      simp only [blankSubAux, if_neg hc]
      intro hm
      rcases List.mem_cons.mp hm with hm | hm
      · exact hc hm.symm
      · exact ih cs hcs hm

theorem qDotAux_no_nl (fuel : Nat) (s : List Char) (h : '\n' ∉ s) :
    '\n' ∉ qDotAux fuel s := by
  induction fuel generalizing s with
  | zero => simpa [qDotAux] using h
  | succ n ih =>
    cases s with
    | nil => simp [qDotAux]
    | cons d ds =>
      have hd : d ≠ '\n' := fun hcc => h (hcc ▸ List.mem_cons_self d ds)
      have hds : '\n' ∉ ds := fun hm => h (List.mem_cons_of_mem _ hm)
      by_cases hq : d = 'Q'
      · subst hq
        simp only [qDotAux, if_pos rfl]
        rcases hm : ds.dropWhile isPySpace with _ | ⟨e, s2⟩
        · intro hx
          rcases List.mem_cons.mp hx with hx | hx
          · simp at hx
          · exact ih ds hds hx
        · by_cases he : e = '.'
          · subst he
            simp only [if_pos rfl]
            have hs2 : '\n' ∉ s2.dropWhile isPySpace := by
              intro hmem
              have h1 : '\n' ∈ s2 := (List.dropWhile_sublist _).subset hmem
              have h2 : '\n' ∈ ds.dropWhile isPySpace := by
                rw [hm]; exact List.mem_cons_of_mem _ h1
              exact hds ((List.dropWhile_sublist _).subset h2)
            intro hx
            rcases List.mem_cons.mp hx with hx | hx
            · simp at hx
            rcases List.mem_cons.mp hx with hx | hx
            · simp at hx
            · exact ih _ hs2 hx
          · simp only [if_neg he]
            intro hx
            rcases List.mem_cons.mp hx with hx | hx
            · simp at hx
            · exact ih ds hds hx
      · simp only [qDotAux, if_neg hq]
        intro hx
        rcases List.mem_cons.mp hx with hx | hx
        · exact hd hx.symm
        · exact ih ds hds hx

theorem questionAux_no_nl (fuel : Nat) (s : List Char) (h : '\n' ∉ s) :
    '\n' ∉ questionAux fuel s := by
  induction fuel generalizing s with
  | zero => simpa [questionAux] using h
  | succ n ih =>
    cases s with
    | nil => simp [questionAux]
    | cons d ds =>
      have hd : d ≠ '\n' := fun hcc => h (hcc ▸ List.mem_cons_self d ds)
      have hds : '\n' ∉ ds := fun hm => h (List.mem_cons_of_mem _ hm)
      intro hx
      simp only [questionAux] at hx
      have fallback : '\n' ∈ d :: questionAux n ds → False := by
        intro hy
        rcases List.mem_cons.mp hy with hy | hy
        · exact hd hy.symm
        · exact ih ds hds hy
      split at hx
      · split at hx
        · rename_i s1 hdl
          split at hx
          · split at hx
            · rcases List.mem_append.mp hx with hx | hx
              · revert hx
                decide
              · refine ih _ (fun hm => ?_) hx
                have h1 := (List.dropWhile_sublist isPySpace).subset hm
                exact hds ((dropLit_suffix _ _ _ hdl).subset h1)
            · exact fallback hx
          · exact fallback hx
        · exact fallback hx
      · exact fallback hx

theorem cleanText_no_nl (s : List Char) : '\n' ∉ cleanText s := by
  intro hx
  have h4 : '\n' ∉ questionSub (qDotSub (blankSub (collapseWs (cleanNoise s)))) :=
    questionAux_no_nl _ _
      (qDotAux_no_nl _ _
        (blankSubAux_no_nl _ _ (collapseAux_no_nl _ false)))
  simp only [cleanText, stripChars] at hx
  exact h4 ((List.filter_sublist _).subset
    ((List.dropWhile_sublist _).subset (mem_rstrip hx)))

theorem idSepText_suffix {mk : Option (List Char)} {s rest : List Char}
    {m : MatchData} (h : idSepText mk s = some (m, rest)) : rest <:+ s := by
  simp only [idSepText] at h
  split_ifs at h
  have h2 := congrArg Prod.snd (Option.some.inj h)
  simp only at h2
  rw [← h2]
  exact (List.dropWhile_suffix _).trans
    ((List.dropWhile_suffix _).trans (List.dropWhile_suffix _))

theorem withOptSep_suffix {mk : Option (List Char)} {s rest : List Char}
    {m : MatchData} (h : withOptSep mk s = some (m, rest)) : rest <:+ s := by
  unfold withOptSep at h
  split at h
  · rename_i r h1
    cases h
    split at h1
    · rename_i c cs
      split_ifs at h1
      exact (idSepText_suffix h1).trans ⟨[c], rfl⟩
    · exact Option.noConfusion h1
  · exact idSepText_suffix h

theorem tryBody1_suffix {s rest : List Char} {m : MatchData}
    (h : tryBody1 s = some (m, rest)) : rest <:+ s := by
  unfold tryBody1 at h
  split at h
  · exact Option.noConfusion h
  · rename_i s1 h1
    have hs1 : s1 <:+ s := dropLit_suffix _ _ _ h1
    split at h
    · rename_i r h2
      cases h
      exact (withOptSep_suffix h2).trans hs1
    · split at h
      · exact Option.noConfusion h
      · rename_i h2 s2 h3
        exact ((withOptSep_suffix h).trans (dropLit_suffix _ _ _ h3)).trans hs1

theorem p3AfterMarker_suffix {mk : Option (List Char)} {s rest : List Char}
    {m : MatchData} (h : p3AfterMarker mk s = some (m, rest)) : rest <:+ s := by
  simp only [p3AfterMarker] at h
  split at h
  · exact Option.noConfusion h
  · split at h
    · rename_i d s2 h0
      split_ifs at h
      have h2 := congrArg Prod.snd (Option.some.inj h)
      simp only at h2
      have hA : rest <:+ s2 := by
        rw [← h2]
        exact (List.dropWhile_suffix _).trans (List.dropWhile_suffix _)
      have hB : s2 <:+ s := by
        have hB1 : s2 <:+ List.dropWhile isPyDigit s := by
          rw [h0]
          exact ⟨[d], rfl⟩
        exact hB1.trans (List.dropWhile_suffix _)
      exact hA.trans hB
    · exact Option.noConfusion h

theorem tryBody3_suffix {s rest : List Char} {m : MatchData}
    (h : tryBody3 s = some (m, rest)) : rest <:+ s := by
  unfold tryBody3 at h
  split at h
  · exact Option.noConfusion h
  · rename_i s1 h1
    have hs1 : s1 <:+ s := dropLit_suffix _ _ _ h1
    split at h
    · rename_i r h2
      cases h
      split at h2
      · rename_i s2 h3
        exact ((p3AfterMarker_suffix h2).trans (dropLit_suffix _ _ _ h3)).trans hs1
      · exact Option.noConfusion h2
    · split at h
      · rename_i r h3
        cases h
        split at h3
        · rename_i s3 h4
          exact ((p3AfterMarker_suffix h3).trans (dropLit_suffix _ _ _ h4)).trans hs1
        · exact Option.noConfusion h3
      · exact (p3AfterMarker_suffix h).trans hs1

theorem tryBody4_suffix {s rest : List Char} {m : MatchData}
    (h : tryBody4 s = some (m, rest)) : rest <:+ s := by
  unfold tryBody4 at h
  split at h
  · rename_i s1 h1
    exact (withOptSep_suffix h).trans (dropLit_suffix _ _ _ h1)
  · split at h
    · rename_i s1 h2
      exact (withOptSep_suffix h).trans (dropLit_suffix _ _ _ h2)
    · exact Option.noConfusion h

theorem tryBody_suffix (p : Pat) {s rest : List Char} {m : MatchData}
    (h : p.tryBody s = some (m, rest)) : rest <:+ s := by
  cases p with
  | p1 => exact tryBody1_suffix h
  | p2 => exact idSepText_suffix h
  | p3 => exact tryBody3_suffix h
  | p4 => exact tryBody4_suffix h

theorem dropLit_cons_eq {c : Char} {lit s r : List Char}
    (h : dropLit (c :: lit) s = some r) : ∃ s', s = c :: s' := by
  cases s with
  | nil => exact Option.noConfusion h
  | cons d s' =>
    simp only [dropLit] at h
    split_ifs at h with hc
    exact ⟨s', by rw [hc]⟩

theorem tryBody1_head {s : List Char} {x : MatchData × List Char}
    (h : tryBody1 s = some x) : ∃ cs, s = 'Q' :: cs := by
  unfold tryBody1 at h
  split at h
  · exact Option.noConfusion h
  · rename_i s1 h1
    exact dropLit_cons_eq h1

theorem tryBody2_head {s : List Char} {x : MatchData × List Char}
    (h : tryBody2 s = some x) :
    ∃ c cs, s = c :: cs ∧ isPyDigit c = true := by
  unfold tryBody2 at h
  simp only [idSepText] at h
  split_ifs at h with h1 h2
  cases s with
  | nil => simp at h1
  | cons c cs =>
    by_cases hd : isPyDigit c
    · exact ⟨c, cs, rfl, hd⟩
    · exact absurd (by simp [List.takeWhile_cons, hd]) h1

theorem tryBody3_head {s : List Char} {x : MatchData × List Char}
    (h : tryBody3 s = some x) : ∃ cs, s = '[' :: cs := by
  unfold tryBody3 at h
  split at h
  · exact Option.noConfusion h
  · rename_i s1 h1
    exact dropLit_cons_eq h1

theorem tryBody4_head {s : List Char} {x : MatchData × List Char}
    (h : tryBody4 s = some x) :
    ∃ c cs, s = c :: cs ∧ (c = 'P' ∨ c = 'E') := by
  unfold tryBody4 at h
  split at h
  · rename_i s1 h1
    obtain ⟨s', hs⟩ := dropLit_cons_eq (c := 'P') h1
    exact ⟨'P', s', hs, Or.inl rfl⟩
  · split at h
    · rename_i s1 h2
      obtain ⟨s', hs⟩ := dropLit_cons_eq (c := 'E') h2
      exact ⟨'E', s', hs, Or.inr rfl⟩
    · exact Option.noConfusion h

theorem finditerAux_nil (p : Pat) (fuel : Nat) (s : List Char)
    (h : '\n' ∉ s) : finditerAux p fuel false s = [] := by
  induction fuel generalizing s with
  | zero => rfl
  | succ n ih =>
    cases s with
    | nil => rfl
    | cons c cs =>
      have hc : c ≠ '\n' := fun hcc => h (hcc ▸ List.mem_cons_self c cs)
      have hcs : '\n' ∉ cs := fun hm => h (List.mem_cons_of_mem _ hm)
      simp only [finditerAux, Bool.false_eq_true, if_false, if_neg hc,
        decide_eq_false hc]
      exact ih cs hcs

theorem finditer_le_one (p : Pat) (s : List Char) (h : '\n' ∉ s) :
    (finditer p s).length ≤ 1 := by
  unfold finditer
  cases s with
  | nil => simp [finditerAux]
  | cons c cs =>
    have hc : c ≠ '\n' := fun hcc => h (hcc ▸ List.mem_cons_self c cs)
    have hcs : '\n' ∉ cs := fun hm => h (List.mem_cons_of_mem _ hm)
    rcases htb : p.tryBody (c :: cs) with _ | ⟨m, rest⟩
    · simp only [finditerAux, if_true, htb, if_neg hc, decide_eq_false hc]
      rw [finditerAux_nil p _ cs hcs]
      simp
    · have hrest : '\n' ∉ rest :=
        fun hm => h ((tryBody_suffix p htb).subset hm)
      simp only [finditerAux, if_true, htb]
      rw [finditerAux_nil p _ rest hrest]
      simp

theorem finditer_nil_of_none (p : Pat) (s : List Char) (h : '\n' ∉ s)
    (hn : p.tryBody s = none) : finditer p s = [] := by
  unfold finditer
  cases s with
  | nil => rfl
  | cons c cs =>
    have hc : c ≠ '\n' := fun hcc => h (hcc ▸ List.mem_cons_self c cs)
    have hcs : '\n' ∉ cs := fun hm => h (List.mem_cons_of_mem _ hm)
    simp only [finditerAux, if_true, hn, if_neg hc, decide_eq_false hc]
    exact finditerAux_nil p _ cs hcs

theorem finditer_p1_nil (c : Char) (cs : List Char) (h : '\n' ∉ c :: cs)
    (hq : c ≠ 'Q') : finditer .p1 (c :: cs) = [] := by
  apply finditer_nil_of_none _ _ h
  rcases htb : Pat.tryBody .p1 (c :: cs) with _ | x
  · rfl
  · obtain ⟨ds, hds⟩ := tryBody1_head htb
    injection hds with h1 _
    exact absurd h1 hq

theorem finditer_p2_nil (c : Char) (cs : List Char) (h : '\n' ∉ c :: cs)
    (hd : isPyDigit c = false) : finditer .p2 (c :: cs) = [] := by
  apply finditer_nil_of_none _ _ h
  rcases htb : Pat.tryBody .p2 (c :: cs) with _ | x
  · rfl
  · obtain ⟨d, ds, hds, hdig⟩ := tryBody2_head htb
    injection hds with h1 _
    rw [← h1] at hdig
    rw [hd] at hdig
    exact Bool.noConfusion hdig

theorem finditer_p3_nil (c : Char) (cs : List Char) (h : '\n' ∉ c :: cs)
    (hq : c ≠ '[') : finditer .p3 (c :: cs) = [] := by
  apply finditer_nil_of_none _ _ h
  rcases htb : Pat.tryBody .p3 (c :: cs) with _ | x
  · rfl
  · obtain ⟨ds, hds⟩ := tryBody3_head htb
    injection hds with h1 _
    exact absurd h1 hq

theorem finditer_p4_nil (c : Char) (cs : List Char) (h : '\n' ∉ c :: cs)
    (hq : ¬(c = 'P' ∨ c = 'E')) : finditer .p4 (c :: cs) = [] := by
  apply finditer_nil_of_none _ _ h
  rcases htb : Pat.tryBody .p4 (c :: cs) with _ | x
  · rfl
  · obtain ⟨d, ds, hds, hde⟩ := tryBody4_head htb
    injection hds with h1 _
    exact absurd (h1 ▸ hde) hq

/-- On newline-free text the four patterns are mutually exclusive (they
require different first characters) and each matches at most once, so at
most one match exists in total. -/
theorem finditer_sum_le_one (t : List Char) (h : '\n' ∉ t) :
    (finditer .p1 t).length + (finditer .p2 t).length +
      (finditer .p3 t).length + (finditer .p4 t).length ≤ 1 := by
  cases t with
  | nil => simp [finditer, finditerAux]
  | cons c cs =>
    by_cases h1 : c = 'Q'
    · have e2 := finditer_p2_nil c cs h (by rw [h1]; decide)
      have e3 := finditer_p3_nil c cs h (by rw [h1]; decide)
      have e4 := finditer_p4_nil c cs h (by rw [h1]; decide)
      rw [e2, e3, e4]
      simpa using finditer_le_one .p1 _ h
    · have e1 := finditer_p1_nil c cs h h1
      by_cases h3 : c = '['
      · have e2 := finditer_p2_nil c cs h (by rw [h3]; decide)
        have e4 := finditer_p4_nil c cs h (by rw [h3]; decide)
        rw [e1, e2, e4]
        simpa using finditer_le_one .p3 _ h
      · have e3 := finditer_p3_nil c cs h h3
        by_cases h4 : c = 'P' ∨ c = 'E'
        · have e2 := finditer_p2_nil c cs h
            (by rcases h4 with h4 | h4 <;> rw [h4] <;> decide)
          rw [e1, e2, e3]
          simpa using finditer_le_one .p4 _ h
        · have e4 := finditer_p4_nil c cs h h4
          rw [e1, e3, e4]
          simpa using finditer_le_one .p2 _ h

theorem processMatch_len {hasG : Bool} {st st' : List Nat × List QuestionMatch}
    {md : MatchData} (h : processMatch hasG st md = .ok st') :
    st'.2.length ≤ st.2.length + 1 := by
  simp only [processMatch] at h
  split_ifs at h
  · cases h
    omega
  · split at h
    · exact Except.noConfusion h
    · split_ifs at h <;> cases h
      · simp
      · omega

theorem processMatches_len (hasG : Bool) (ms : List MatchData)
    (st st' : List Nat × List QuestionMatch)
    (h : processMatches hasG ms st = .ok st') :
    st'.2.length ≤ st.2.length + ms.length := by
  induction ms generalizing st with
  | nil =>
    simp only [processMatches] at h
    cases h
    simp
  | cons md ms ih =>
    simp only [processMatches] at h
    split at h
    · exact Except.noConfusion h
    · rename_i st1 hpm
      have h1 := processMatch_len hpm
      have h2 := ih st1 h
      simp only [List.length_cons]
      omega

theorem runPatterns_len (t : List Char) (ps : List Pat)
    (st st' : List Nat × List QuestionMatch)
    (h : runPatterns t ps st = .ok st') :
    st'.2.length ≤ st.2.length +
      (ps.map (fun p => (finditer p t).length)).sum := by
  induction ps generalizing st with
  | nil =>
    simp only [runPatterns] at h
    cases h
    simp
  | cons p ps ih =>
    simp only [runPatterns] at h
    split at h
    · exact Except.noConfusion h
    · rename_i st1 hpm
      have h1 := processMatches_len _ _ _ _ hpm
      have h2 := ih st1 h
      simp only [List.map_cons, List.sum_cons]
      omega

theorem insertQM_length (m : QuestionMatch) (l : List QuestionMatch) :
    (insertQM m l).length = l.length + 1 := by
  induction l with
  | nil => rfl
  | cons x xs ih =>
    simp only [insertQM]
    split_ifs
    · simp
    · simp [ih]

theorem sortQM_length (l : List QuestionMatch) :
    (sortQM l).length = l.length := by
  induction l with
  | nil => rfl
  | cons x xs ih => simp [sortQM, insertQM_length, ih]

theorem extract_len_le_one (t : List Char) (h : '\n' ∉ t)
    (l : List QuestionMatch) (he : extractWithConfidence t = .ok l) :
    l.length ≤ 1 := by
  unfold extractWithConfidence at he
  split at he
  · exact Except.noConfusion he
  · rename_i st hrp
    cases he
    rw [sortQM_length]
    have h1 := runPatterns_len t PATTERNS ([], []) st hrp
    have h2 := finditer_sum_le_one t h
    simp only [PATTERNS, List.map_cons, List.map_nil, List.sum_cons,
      List.sum_nil, List.length_nil] at h1
    omega

/-- C2: `_clean_text` output contains no newline (the whitespace collapse
replaces every whitespace run, newlines included, by one space before the
blank-line rule runs); consequently each of the four patterns — all
anchored at start of input or just after a newline — matches at most once,
and the pipeline, whenever it returns, returns at most one record. -/
theorem c2_thm (s : String) :
    '\n' ∉ cleanText s.data ∧
    (∀ p ∈ PATTERNS, (finditer p (cleanText s.data)).length ≤ 1) ∧
    ∀ l, extractPipeline s = Except.ok l → l.length ≤ 1 := by
  refine ⟨cleanText_no_nl _, ?_, ?_⟩
  · intro p _
    exact finditer_le_one p _ (cleanText_no_nl _)
  · intro l hl
    unfold extractPipeline at hl
    split at hl
    · exact Except.noConfusion hl
    · rename_i qs hq
      cases hl
      calc (postProcess qs).length
          ≤ qs.length := List.length_filterMap_le _ _
        _ ≤ 1 := extract_len_le_one _ (cleanText_no_nl _) qs hq

/-- C2 witness: the third part of `c2_thm` applied at a concrete input on
which the pipeline returns. -/
theorem c2_witness :
    extractPipeline "Q1: first thing." = Except.ok [⟨1, "first thing.".data⟩] ∧
    ([⟨1, "first thing.".data⟩] : List Record).length ≤ 1 :=
  ⟨by decide, (c2_thm "Q1: first thing.").2.2 _ (by decide)⟩

/-- State invariant of `_extract_with_confidence`: every accepted
candidate's id is in the seen set and its confidence cleared the 0.5
threshold, and accepted ids are pairwise distinct. -/
def GoodSt (st : List Nat × List QuestionMatch) : Prop :=
  (∀ q ∈ st.2, q.question_id ∈ st.1 ∧ Frac.blt ⟨1, 2⟩ q.confidence = true) ∧
  List.Pairwise (fun a b => a.question_id ≠ b.question_id) st.2

theorem processMatch_good {hasG : Bool} {st st' : List Nat × List QuestionMatch}
    {md : MatchData} (hg : GoodSt st)
    (h : processMatch hasG st md = .ok st') : GoodSt st' := by
  simp only [processMatch] at h
  split_ifs at h with hseen
  · cases h
    exact hg
  · split at h
    · exact Except.noConfusion h
    · rename_i conf hconf
      split_ifs at h with hblt
      · cases h
        constructor
        · intro q hq
          rcases List.mem_append.mp hq with hq | hq
          · obtain ⟨ha, hb⟩ := hg.1 q hq
            exact ⟨List.mem_cons_of_mem _ ha, hb⟩
          · simp only [List.mem_singleton] at hq
            subst hq
            exact ⟨List.mem_cons_self _ _, hblt⟩
        · rw [List.pairwise_append]
          refine ⟨hg.2, List.pairwise_singleton _ _, ?_⟩
          intro a ha b hb
          simp only [List.mem_singleton] at hb
          subst hb
          intro hab
          have hab' : a.question_id = digitsToNat md.idDigits := hab
          exact hseen (hab' ▸ (hg.1 a ha).1)
      · cases h
        exact hg

theorem processMatches_good (hasG : Bool) (ms : List MatchData)
    (st st' : List Nat × List QuestionMatch) (hg : GoodSt st)
    (h : processMatches hasG ms st = .ok st') : GoodSt st' := by
  induction ms generalizing st with
  | nil =>
    simp only [processMatches] at h
    cases h
    exact hg
  | cons md ms ih =>
    simp only [processMatches] at h
    split at h
    · exact Except.noConfusion h
    · rename_i st1 hpm
      exact ih st1 (processMatch_good hg hpm) h

theorem runPatterns_good (t : List Char) (ps : List Pat)
    (st st' : List Nat × List QuestionMatch) (hg : GoodSt st)
    (h : runPatterns t ps st = .ok st') : GoodSt st' := by
  induction ps generalizing st with
  | nil =>
    simp only [runPatterns] at h
    cases h
    exact hg
  | cons p ps ih =>
    simp only [runPatterns] at h
    split at h
    · exact Except.noConfusion h
    · rename_i st1 hpm
      exact ih st1 (processMatches_good _ _ _ _ hg hpm) h

theorem insertQM_perm (m : QuestionMatch) (l : List QuestionMatch) :
    (insertQM m l).Perm (m :: l) := by
  induction l with
  | nil => exact List.Perm.refl _
  | cons x xs ih =>
    simp only [insertQM]
    split_ifs
    · exact List.Perm.refl _
    · exact (ih.cons x).trans (List.Perm.swap m x xs)

theorem sortQM_perm (l : List QuestionMatch) : (sortQM l).Perm l := by
  induction l with
  | nil => exact List.Perm.refl _
  | cons x xs ih => exact (insertQM_perm x (sortQM xs)).trans (ih.cons x)

theorem insertQM_sorted (m : QuestionMatch) (l : List QuestionMatch)
    (h : List.Pairwise (fun a b => a.question_id ≤ b.question_id) l) :
    List.Pairwise (fun a b => a.question_id ≤ b.question_id) (insertQM m l) := by
  induction l with
  | nil => simp [insertQM]
  | cons x xs ih =>
    obtain ⟨hx, hxs⟩ := List.pairwise_cons.mp h
    simp only [insertQM]
    split_ifs with hle
    · refine List.pairwise_cons.mpr ⟨?_, h⟩
      intro b hb
      rcases List.mem_cons.mp hb with hb | hb
      · exact hb ▸ hle
      · exact le_trans hle (hx b hb)
    · refine List.pairwise_cons.mpr ⟨?_, ih hxs⟩
      intro b hb
      have hb' := List.mem_cons.mp ((insertQM_perm m xs).mem_iff.mp hb)
      rcases hb' with rfl | hbx
      · omega
      · exact hx b hbx

theorem sortQM_sorted (l : List QuestionMatch) :
    List.Pairwise (fun a b => a.question_id ≤ b.question_id) (sortQM l) := by
  induction l with
  | nil => simp [sortQM]
  | cons x xs ih => exact insertQM_sorted x (sortQM xs) ih

theorem pairwiseAnd {α : Type} {R S : α → α → Prop} {l : List α}
    (hr : l.Pairwise R) (hs : l.Pairwise S) :
    l.Pairwise fun a b => R a b ∧ S a b := by
  induction l with
  | nil => exact List.Pairwise.nil
  | cons x xs ih =>
    obtain ⟨hr1, hr2⟩ := List.pairwise_cons.mp hr
    obtain ⟨hs1, hs2⟩ := List.pairwise_cons.mp hs
    exact List.pairwise_cons.mpr ⟨fun b hb => ⟨hr1 b hb, hs1 b hb⟩, ih hr2 hs2⟩

/-- The candidate list returned by `_extract_with_confidence` is strictly
increasing in id, and every candidate cleared the 0.5 threshold. -/
theorem extract_strict_sorted (t : List Char) (l : List QuestionMatch)
    (h : extractWithConfidence t = .ok l) :
    List.Pairwise (fun a b => a.question_id < b.question_id) l ∧
    ∀ q ∈ l, Frac.blt ⟨1, 2⟩ q.confidence = true := by
  unfold extractWithConfidence at h
  split at h
  · exact Except.noConfusion h
  · rename_i st hrp
    cases h
    have hst : GoodSt st :=
      runPatterns_good _ _ _ _ ⟨by simp, List.Pairwise.nil⟩ hrp
    have hperm := sortQM_perm st.2
    have hsort := sortQM_sorted st.2
    have hsymm : ∀ {x y : QuestionMatch},
        x.question_id ≠ y.question_id → y.question_id ≠ x.question_id :=
      fun hxy h => hxy h.symm
    have hne : List.Pairwise
        (fun a b : QuestionMatch => a.question_id ≠ b.question_id)
        (sortQM st.2) := (hperm.pairwise_iff hsymm).mpr hst.2
    constructor
    · exact (pairwiseAnd hsort hne).imp fun hab =>
        Nat.lt_of_le_of_ne hab.1 hab.2
    · intro q hq
      exact (hst.1 q (hperm.mem_iff.mp hq)).2

/-- Provenance of each record produced by `_post_process_questions`. -/
theorem postProcess_mem {qs : List QuestionMatch} {r : Record}
    (h : r ∈ postProcess qs) :
    ∃ q ∈ qs, r.question_id = q.question_id ∧
      r.question = finalClean q.question_text ∧ r.question ≠ [] := by
  simp only [postProcess] at h
  obtain ⟨q, hq, hf⟩ := List.mem_filterMap.mp h
  split_ifs at hf with ht
  cases hf
  exact ⟨q, hq, rfl, rfl, ht⟩

theorem pairwise_postProcess {qs : List QuestionMatch}
    (h : List.Pairwise (fun a b => a.question_id < b.question_id) qs) :
    List.Pairwise (fun a b : Record => a.question_id < b.question_id)
      (postProcess qs) := by
  induction qs with
  | nil => simp [postProcess]
  | cons q qs ih =>
    obtain ⟨hq, hqs⟩ := List.pairwise_cons.mp h
    simp only [postProcess, List.filterMap_cons]
    split
    · exact ih hqs
    · rename_i r hr
      refine List.pairwise_cons.mpr ⟨?_, ih hqs⟩
      intro b hb
      obtain ⟨q', hq', hid, _, _⟩ := postProcess_mem hb
      split_ifs at hr with ht
      cases hr
      rw [hid]
      exact hq q' hq'

/-- C4: in every returned record list, ids are strictly increasing (hence
pairwise distinct and sorted ascending). -/
theorem c4_thm (s : String) (l : List Record)
    (h : extractPipeline s = Except.ok l) :
    List.Pairwise (fun a b : Record => a.question_id < b.question_id) l := by
  unfold extractPipeline at h
  split at h
  · exact Except.noConfusion h
  · rename_i qs hq
    cases h
    exact pairwise_postProcess (extract_strict_sorted _ _ hq).1

/-- C4 witness: `c4_thm` at a concrete input. -/
theorem c4_witness :
    List.Pairwise (fun a b : Record => a.question_id < b.question_id)
      [⟨2, "alpha beta gamma.".data⟩] :=
  c4_thm "Q2: alpha beta gamma." _ (by decide)

/-- C5: every returned record has non-empty text ending in '.' or '?'. -/
theorem c5_thm (s : String) (l : List Record)
    (h : extractPipeline s = Except.ok l) :
    ∀ r ∈ l, r.question ≠ [] ∧
      (r.question.getLast? = some '.' ∨ r.question.getLast? = some '?') := by
  unfold extractPipeline at h
  split at h
  · exact Except.noConfusion h
  · rename_i qs hq
    cases h
    intro r hr
    obtain ⟨q, hqm, _, hqt, hne⟩ := postProcess_mem hr
    refine ⟨hne, ?_⟩
    rcases (finalClean_props q.question_text).2.2.2.2 with he | he
    · exact absurd (hqt.trans he) hne
    · rw [hqt]
      exact he

/-- C5 witness: `c5_thm` at a concrete input and record. -/
theorem c5_witness :
    (⟨3, "Where is here?".data⟩ : Record).question ≠ [] ∧
      ((⟨3, "Where is here?".data⟩ : Record).question.getLast? = some '.' ∨
       (⟨3, "Where is here?".data⟩ : Record).question.getLast? = some '?') :=
  c5_thm "Q3. Where is here?" [⟨3, "Where is here?".data⟩] (by decide)
    ⟨3, "Where is here?".data⟩ (by decide)

/-- C7: every returned record originates from an accepted candidate whose
confidence strictly exceeded 0.5 at acceptance time. -/
theorem c7_thm (s : String) (l : List Record)
    (h : extractPipeline s = Except.ok l) :
    ∃ qs, extractWithConfidence (cleanText s.data) = Except.ok qs ∧
      ∀ r ∈ l, ∃ q ∈ qs, q.question_id = r.question_id ∧
        Frac.blt ⟨1, 2⟩ q.confidence = true := by
  unfold extractPipeline at h
  split at h
  · exact Except.noConfusion h
  · rename_i qs hq
    cases h
    refine ⟨qs, hq, ?_⟩
    intro r hr
    obtain ⟨q, hqm, hid, _, _⟩ := postProcess_mem hr
    exact ⟨q, hqm, hid.symm, (extract_strict_sorted _ _ hq).2 q hqm⟩

/-- C7 witness: `c7_thm` at a concrete input. -/
theorem c7_witness :
    ∃ qs, extractWithConfidence (cleanText "Q4. Does this hold?".data)
        = Except.ok qs ∧
      ∀ r ∈ ([⟨4, "Does this hold?".data⟩] : List Record),
        ∃ q ∈ qs, q.question_id = r.question_id ∧
          Frac.blt ⟨1, 2⟩ q.confidence = true :=
  c7_thm "Q4. Does this hold?" _ (by decide)

/-- C9 (counterexample): on the direct `_extract_with_confidence` input
"[1] ab\n[1] What is love?" the bracketed pattern produces two matches
with the same id 1 — the first with text "ab" (confidence 0.5, rejected
by the threshold), the second with text "What is love?" — and the
accepted candidate is the LATER match, not the first occurrence. -/
theorem c9_counterexample :
    (finditer .p3 "[1] ab\n[1] What is love?".data).map
        (fun m => (digitsToNat m.idDigits, m.text))
      = [(1, "ab".data), (1, "What is love?".data)] ∧
    extractWithConfidence "[1] ab\n[1] What is love?".data
      = Except.ok [⟨1, "What is love?".data, ⟨1, 1⟩⟩] :=
  ⟨by decide, by decide⟩

/-- The candidate built from one match, with the confidence the scorer
assigns it. -/
def mkQM (md : MatchData) : QuestionMatch :=
  ⟨digitsToNat md.idDigits, stripChars md.text,
    specConfidence md.marker (stripChars md.text)⟩

/-- A match claims id `i` and clears the 0.5 threshold. -/
def acceptKey (i : Nat) (md : MatchData) : Bool :=
  (digitsToNat md.idDigits == i) &&
  Frac.blt ⟨1, 2⟩ (specConfidence md.marker (stripChars md.text))

theorem processMatches_first (ms : List MatchData) (seen : List Nat)
    (acc : List QuestionMatch) (seen' : List Nat)
    (acc' : List QuestionMatch)
    (h : processMatches true ms (seen, acc) = .ok (seen', acc')) :
    ∃ ext, acc' = acc ++ ext ∧
      ∀ q ∈ ext, q.question_id ∉ seen ∧
        ∃ md, ms.find? (acceptKey q.question_id) = some md ∧ q = mkQM md := by
  induction ms generalizing seen acc with
  | nil =>
    simp only [processMatches] at h
    cases h
    exact ⟨[], by simp, by simp⟩
  | cons md ms ih =>
    simp only [processMatches] at h
    split at h
    · exact Except.noConfusion h
    · rename_i st1 hpm
      simp only [processMatch, calcConfidence_true] at hpm
      split_ifs at hpm with hseen hblt
      · -- id already seen: state unchanged
        cases hpm
        obtain ⟨ext, hext, hprops⟩ := ih seen acc h
        refine ⟨ext, hext, fun q hq => ?_⟩
        obtain ⟨hnot, md', hfind, hq'⟩ := hprops q hq
        refine ⟨hnot, md', ?_, hq'⟩
        rw [List.find?_cons_of_neg, hfind]
        simp only [acceptKey, Bool.and_eq_true, beq_iff_eq, not_and]
        intro heq
        exact absurd (heq ▸ hseen) hnot
      · -- accepted
        cases hpm
        obtain ⟨ext, hext, hprops⟩ := ih _ _ h
        refine ⟨mkQM md :: ext, by rw [hext, List.append_assoc]; rfl, ?_⟩
        intro q hq
        rcases List.mem_cons.mp hq with rfl | hq
        · refine ⟨hseen, md, ?_, rfl⟩
          rw [List.find?_cons_of_pos]
          simp only [acceptKey, mkQM, Bool.and_eq_true, beq_iff_eq]
          exact ⟨trivial, hblt⟩
        · obtain ⟨hnot, md', hfind, hq'⟩ := hprops q hq
          have hne : q.question_id ≠ digitsToNat md.idDigits :=
            fun he => hnot (he ▸ List.mem_cons_self _ _)
          have hnot' : q.question_id ∉ seen :=
            fun he => hnot (List.mem_cons_of_mem _ he)
          refine ⟨hnot', md', ?_, hq'⟩
          rw [List.find?_cons_of_neg, hfind]
          simp only [acceptKey, Bool.and_eq_true, beq_iff_eq, not_and]
          intro heq
          exact absurd heq.symm hne
      · -- rejected by the threshold: state unchanged
        cases hpm
        obtain ⟨ext, hext, hprops⟩ := ih seen acc h
        refine ⟨ext, hext, fun q hq => ?_⟩
        obtain ⟨hnot, md', hfind, hq'⟩ := hprops q hq
        refine ⟨hnot, md', ?_, hq'⟩
        rw [List.find?_cons_of_neg, hfind]
        simp only [acceptKey, Bool.and_eq_true, beq_iff_eq, not_and]
        intro _
        exact hblt

/-- C9 (amended): within a single pattern's matches, processed from a
fresh state, every accepted candidate is built from the FIRST match in
document order that has its id and clears the 0.5 threshold; a match
rejected by the threshold does not block a later match with the same id.
(Only patterns defining the `marker` group can accept candidates at all,
cf. the C3 theorem, so the marker-group flag is `true` here.) -/
theorem c9_amended_thm (ms : List MatchData) (seen' : List Nat)
    (acc' : List QuestionMatch)
    (h : processMatches true ms ([], []) = .ok (seen', acc')) :
    ∀ q ∈ acc',
      ∃ md, ms.find? (acceptKey q.question_id) = some md ∧ q = mkQM md := by
  obtain ⟨ext, hext, hprops⟩ := processMatches_first ms [] [] seen' acc' h
  intro q hq
  rw [hext] at hq
  obtain ⟨-, md, hfind, hq'⟩ := hprops q (by simpa using hq)
  exact ⟨md, hfind, hq'⟩

/-- C9 witness: the amended theorem at the counterexample's match list and
its accepted candidate. -/
theorem c9_witness :
    ∃ md, (finditer .p3 "[1] ab\n[1] What is love?".data).find?
        (acceptKey (⟨1, "What is love?".data, ⟨1, 1⟩⟩ :
          QuestionMatch).question_id) = some md ∧
      (⟨1, "What is love?".data, ⟨1, 1⟩⟩ : QuestionMatch) = mkQM md :=
  c9_amended_thm (finditer .p3 "[1] ab\n[1] What is love?".data) [1]
    [⟨1, "What is love?".data, ⟨1, 1⟩⟩] (by decide)
    ⟨1, "What is love?".data, ⟨1, 1⟩⟩ (by decide)
